import Mathlib

/-!
Verification of the surgical manifest patch engine of the Depfixer CLI:
version classification and formatting (VersionUtils), change-set
construction (getChanges) and the text-level patch operations
(replaceVersionInSection, removePackageFromSection, updateEngines,
applySurgicalFixes). JavaScript strings are modelled as lists of
characters; the regular expressions of the source, all of which are
literal-text patterns with flexible whitespace, are modelled by
deterministic character scanners with the same matching semantics.
-/

/-- A JavaScript string, modelled as a list of characters. -/
abbrev Str := List Char

/-- Shorthand turning a Lean string literal into the model type. -/
def str (s : String) : Str := s.data

/-- The whitespace class of the JavaScript pattern escape in these patterns
(space, tab, newline, carriage return, vertical tab, form feed). -/
def isWsChar (c : Char) : Bool :=
  c = ' ' || c = '\t' || c = '\n' || c = '\r' || c = '\x0b' || c = '\x0c'

/-- Whether `s` begins with `pat` (the startsWith of JavaScript strings). -/
def startsWithL (pat s : Str) : Bool := s.take pat.length == pat

/-- Whether `pat` occurs as a contiguous substring of `s` (the includes of
JavaScript strings). -/
def containsSub : Str → Str → Bool
  | s, pat =>
    startsWithL pat s ||
    match s with
    | [] => false
    | _ :: rest => containsSub rest pat

/-- Substring occurrence as a proposition. -/
def HasSub (pat s : Str) : Prop := ∃ l r, s = l ++ pat ++ r

/-- Lower-casing a string character by character (toLowerCase on the ASCII
strings handled here). -/
def lowerStr (s : Str) : Str := s.map Char.toLower

/-- One of the characters of the class in the validity pattern of
isUnknownVersion. -/
def isRangeOp (c : Char) : Bool := c = '^' || c = '~' || c = '>' || c = '=' || c = '<'

/-- The anchored alternatives of the version-validity pattern: a digit at
the start, optionally preceded by one range-operator character. -/
def startsOpDigitB : Str → Bool
  | [] => false
  | c :: rest =>
    c.isDigit ||
    (isRangeOp c &&
      (match rest with
       | [] => false
       | d :: _ => d.isDigit))

/-- The test of the version-validity pattern of VersionUtils.isUnknownVersion:
an optional single range-operator character followed by a digit at the start,
or a digit at the start, or an asterisk anywhere, or the literal latest
anywhere. -/
def validVersionTest (s : Str) : Bool :=
  startsOpDigitB s || containsSub s (str "*") || containsSub s (str "latest")

/-- VersionUtils.isUnknownVersion: absent or empty strings, the marker
strings, and anything failing the validity pattern are unknown. `none`
models an undefined argument; the empty string is also falsy. -/
def isUnknownVersion (version : Option Str) : Bool :=
  match version with
  | none => true
  | some v =>
    if v = [] then true
    else
      let lower := lowerStr v
      if lower = str "unknown" || containsSub lower (str "unknown") then true
      else if containsSub lower (str "not available") then true
      else if lower = str "pending" then true
      else if lower = str "manualreviewrequired" then true
      else !(validVersionTest lower)

/-- VersionUtils.isRemoveVersion: the removal sentinels. -/
def isRemoveVersion (version : Option Str) : Bool :=
  match version with
  | none => false
  | some v =>
    if v = [] then false
    else
      let lower := lowerStr v
      lower = str "remove" || lower = str "remove or replace" || v = str "REMOVE"

/-- The keep-unchanged condition of VersionUtils.formatVersion: an existing
range prefix, a space, or the or-combinator. -/
def formatKeep (version : Str) : Bool :=
  startsWithL (str "^") version || startsWithL (str "~") version ||
  startsWithL (str ">=") version || startsWithL (str ">") version ||
  startsWithL (str "<=") version || startsWithL (str "<") version ||
  containsSub version (str " ") || containsSub version (str "||")

/-- VersionUtils.formatVersion: keep an existing range prefix, a spaced
range or an or-combinator unchanged, otherwise prepend the caret. -/
def formatVersion (version : Str) : Str :=
  if version = [] then version
  else if formatKeep version then version
  else '^' :: version

/-- The two dependency-like manifest sections handled by getChanges. -/
inductive DepType
  | dependency
  | devDependency
deriving DecidableEq

/-- A single version change, as built by getChanges. The source's fields
from and to are named fromVersion and toVersion. -/
structure Change where
  package : Str
  fromVersion : Str
  toVersion : Str
  type : DepType
deriving DecidableEq

/-- A parsed dependency section: association list in object-key order. -/
abbrev DepMap := List (Str × Str)

/-- Property access original.dependencies[pkg]: the first binding of the
key (object keys are unique, so first is the only one). -/
def lookupKey (m : DepMap) (k : Str) : Option Str :=
  match m with
  | [] => none
  | (k', v) :: rest => if k' = k then some v else lookupKey rest k

/-- The parsed view of the manifest, restricted to the two sections
getChanges reads. `none` models an absent section. -/
structure Manifest where
  dependencies : Option DepMap
  devDependencies : Option DepMap
deriving DecidableEq

/-- The proposed solution consumed by getChanges: both section mappings are
always present. -/
structure Solution where
  dependencies : DepMap
  devDependencies : DepMap
deriving DecidableEq

/-- The loop body of getChanges for one solution entry of one section:
skip unknown and removal versions, skip packages not declared (or declared
falsy, i.e. with the empty string) in the current section, skip entries
whose current string equals the proposed raw string, otherwise emit the
Change. -/
def sectionEmit (deps : DepMap) (ty : DepType) (e : Str × Str) : Option Change :=
  if isUnknownVersion (some e.2) || isRemoveVersion (some e.2) then none
  else
    match lookupKey deps e.1 with
    | none => none
    | some cur =>
      if cur ≠ [] ∧ cur ≠ e.2 then some ⟨e.1, cur, formatVersion e.2, ty⟩
      else none

/-- One section block of getChanges. The source's two blocks (dependencies
and devDependencies) are textually identical up to the section selected, so
both are instances of this definition. -/
def sectionChanges (current : Option DepMap) (proposed : DepMap) (ty : DepType) :
    List Change :=
  match current with
  | none => []
  | some deps => proposed.filterMap (sectionEmit deps ty)

/-- PackageJsonService.getChanges: dependencies first, then
devDependencies, each in the solution's iteration order. -/
def getChanges (original : Manifest) (solution : Solution) : List Change :=
  sectionChanges original.dependencies solution.dependencies DepType.dependency ++
  sectionChanges original.devDependencies solution.devDependencies DepType.devDependency

theorem startsWithL_iff (pat s : Str) : startsWithL pat s = true ↔ ∃ r, s = pat ++ r := by
  unfold startsWithL
  constructor
  · intro h
    refine ⟨s.drop pat.length, ?_⟩
    have h' : s.take pat.length = pat := by simpa using h
    conv_lhs => rw [← List.take_append_drop pat.length s]
    rw [h']
  · rintro ⟨r, rfl⟩
    simp [List.take_left]

theorem containsSub_iff (s pat : Str) : containsSub s pat = true ↔ HasSub pat s := by
  unfold HasSub
  induction s with
  | nil =>
    rw [containsSub]
    simp only [Bool.or_false]
    rw [startsWithL_iff]
    constructor
    · rintro ⟨r, hr⟩
      exact ⟨[], r, by simpa using hr⟩
    · rintro ⟨l, r, h⟩
      have h2 := List.append_eq_nil.mp h.symm
      have h3 := List.append_eq_nil.mp h2.1
      exact ⟨[], by simp [h3.2]⟩
  | cons a rest ih =>
    rw [containsSub]
    rw [Bool.or_eq_true, startsWithL_iff, ih]
    constructor
    · rintro (⟨r, hr⟩ | ⟨l, r, hr⟩)
      · exact ⟨[], r, by simpa using hr⟩
      · exact ⟨a :: l, r, by simp [hr]⟩
    · rintro ⟨l, r, hr⟩
      cases l with
      | nil => exact Or.inl ⟨r, by simpa using hr⟩
      | cons b l' =>
        have hab : a = b ∧ rest = l' ++ pat ++ r := by
          simpa using hr
        exact Or.inr ⟨l', r, hab.2⟩

theorem not_hasSub (s pat : Str) (h : containsSub s pat = false) : ¬ HasSub pat s := by
  intro hs
  rw [← containsSub_iff] at hs
  simp [h] at hs

/-- The start-of-string shapes accepted by the validity pattern: a digit,
optionally preceded by exactly one range-operator character. -/
def StartsOpDigit (s : Str) : Prop :=
  (∃ d rest, s = d :: rest ∧ d.isDigit = true) ∨
  (∃ c d rest, s = c :: d :: rest ∧ isRangeOp c = true ∧ d.isDigit = true)

theorem startsOpDigitB_iff (s : Str) : startsOpDigitB s = true ↔ StartsOpDigit s := by
  cases s with
  | nil => simp [startsOpDigitB, StartsOpDigit]
  | cons c rest =>
    cases rest with
    | nil => simp [startsOpDigitB, StartsOpDigit]
    | cons d r => simp [startsOpDigitB, StartsOpDigit, and_assoc]

theorem validVersionTest_iff (s : Str) :
    validVersionTest s = true ↔
      StartsOpDigit s ∨ HasSub (str "*") s ∨ HasSub (str "latest") s := by
  unfold validVersionTest
  simp [Bool.or_eq_true, startsOpDigitB_iff, containsSub_iff, or_assoc]

/-- The classification exactly as claim C4 words it: unknown when absent,
when the lower-cased string contains one of the four markers, or when the
string does not start with a digit, one of the five range-operator
characters, an asterisk, or the literal latest. -/
def claimC4unknown (version : Option Str) : Bool :=
  match version with
  | none => true
  | some v =>
    let lower := lowerStr v
    containsSub lower (str "unknown") || containsSub lower (str "not available") ||
    containsSub lower (str "pending") || containsSub lower (str "manualreviewrequired") ||
    !(match lower with
      | [] => false
      | c :: _ => c.isDigit || isRangeOp c || c = '*' || startsWithL (str "latest") lower)

/-- Claim C4 is false on the code: the version string >=1.0.0 starts with
the range-operator character > and contains no marker, so the claim
classifies it as non-unknown, but isUnknownVersion returns true (its
pattern allows at most one operator character before the digit). -/
theorem c4_counterexample :
    isUnknownVersion (some (str ">=1.0.0")) = true ∧
    claimC4unknown (some (str ">=1.0.0")) = false := by
  constructor
  · rfl
  · rfl

/-- Claim C4 as amended: a version is unknown exactly when it is absent or
empty, its lower-casing contains the substring unknown or not available,
equals pending or the manual-review marker exactly, or fails the validity
pattern, which accepts a digit at the start preceded by at most one
range-operator character, an asterisk anywhere, or the substring latest
anywhere. -/
theorem c4_amended :
    isUnknownVersion none = true ∧
    ∀ v : Str,
      (isUnknownVersion (some v) = true ↔
        (v = [] ∨ HasSub (str "unknown") (lowerStr v) ∨
         HasSub (str "not available") (lowerStr v) ∨
         lowerStr v = str "pending" ∨ lowerStr v = str "manualreviewrequired" ∨
         ¬ (StartsOpDigit (lowerStr v) ∨ HasSub (str "*") (lowerStr v) ∨
            HasSub (str "latest") (lowerStr v)))) := by
  refine ⟨rfl, fun v => ?_⟩
  by_cases hv : v = []
  · subst hv
    simp [isUnknownVersion]
  · simp only [isUnknownVersion, if_neg hv]
    split_ifs with h1 h2 h3 h4
    · simp only [true_iff]
      rcases (Bool.or_eq_true _ _).mp h1 with he | hc
      · exact Or.inr (Or.inl ⟨[], [], by simp [of_decide_eq_true he]⟩)
      · exact Or.inr (Or.inl ((containsSub_iff _ _).mp hc))
    · simp only [true_iff]
      exact Or.inr (Or.inr (Or.inl ((containsSub_iff _ _).mp h2)))
    · simp only [true_iff]
      exact Or.inr (Or.inr (Or.inr (Or.inl h3)))
    · simp only [true_iff]
      exact Or.inr (Or.inr (Or.inr (Or.inr (Or.inl h4))))
    · constructor
      · intro hnv
        refine Or.inr (Or.inr (Or.inr (Or.inr (Or.inr ?_))))
        rw [← validVersionTest_iff]
        intro hvt
        rw [hvt] at hnv
        simp at hnv
      · rintro (h | h | h | h | h | h)
        · exact absurd h hv
        · have hc : containsSub (lowerStr v) (str "unknown") = true :=
            (containsSub_iff _ _).mpr h
          simp [hc] at h1
        · exact absurd ((containsSub_iff _ _).mpr h) h2
        · exact absurd h h3
        · exact absurd h h4
        · have hb : validVersionTest (lowerStr v) = false := by
            by_contra hb
            exact h ((validVersionTest_iff _).mp (by simpa using hb))
          simp [hb]

/-- The formatting exactly as claim C5 words it: any version starting with
one of the five range-operator characters of the glossary, containing a
space or containing the or-combinator is returned unchanged; every other
non-empty version gets the caret prefix; the empty string is returned
unchanged. -/
def claimC5format (v : Str) : Str :=
  if (match v with
      | [] => false
      | c :: _ => isRangeOp c) || containsSub v (str " ") || containsSub v (str "||") then v
  else if v = [] then v
  else '^' :: v

/-- Claim C5 is false on the code: =1.0.0 starts with the range-operator
character = of the claim's operator set, so the claim returns it unchanged,
but formatVersion prepends a caret: the source's startsWith list has no
bare =. -/
theorem c5_counterexample :
    formatVersion (str "=1.0.0") = str "^=1.0.0" ∧
    claimC5format (str "=1.0.0") = str "=1.0.0" := by
  constructor
  · rfl
  · rfl

/-- One of the characters whose presence at the start makes formatVersion
return the version unchanged: the source's startsWith tests for the
two-character operators are subsumed by those for the one-character ones,
and a bare equals sign is not in the list. -/
def CodeRangeOp (c : Char) : Prop := c = '^' ∨ c = '~' ∨ c = '>' ∨ c = '<'

theorem formatKeep_iff (v : Str) :
    formatKeep v = true ↔
      (∃ c rest, v = c :: rest ∧ CodeRangeOp c) ∨
      HasSub (str " ") v ∨ HasSub (str "||") v := by
  unfold formatKeep
  simp only [Bool.or_eq_true, startsWithL_iff, containsSub_iff]
  constructor
  · rintro (((((((⟨r, hr⟩ | ⟨r, hr⟩) | ⟨r, hr⟩) | ⟨r, hr⟩) | ⟨r, hr⟩) | ⟨r, hr⟩) | h) | h)
    · exact Or.inl ⟨'^', r, hr, Or.inl rfl⟩
    · exact Or.inl ⟨'~', r, hr, Or.inr (Or.inl rfl)⟩
    · exact Or.inl ⟨'>', '=' :: r, hr, Or.inr (Or.inr (Or.inl rfl))⟩
    · exact Or.inl ⟨'>', r, hr, Or.inr (Or.inr (Or.inl rfl))⟩
    · exact Or.inl ⟨'<', '=' :: r, hr, Or.inr (Or.inr (Or.inr rfl))⟩
    · exact Or.inl ⟨'<', r, hr, Or.inr (Or.inr (Or.inr rfl))⟩
    · exact Or.inr (Or.inl h)
    · exact Or.inr (Or.inr h)
  · rintro (⟨c, rest, rfl, hc | hc | hc | hc⟩ | h | h)
    · subst hc
      exact Or.inl (Or.inl (Or.inl (Or.inl (Or.inl (Or.inl (Or.inl ⟨rest, rfl⟩))))))
    · subst hc
      exact Or.inl (Or.inl (Or.inl (Or.inl (Or.inl (Or.inl (Or.inr ⟨rest, rfl⟩))))))
    · subst hc
      exact Or.inl (Or.inl (Or.inl (Or.inl (Or.inr ⟨rest, rfl⟩))))
    · subst hc
      exact Or.inl (Or.inl (Or.inr ⟨rest, rfl⟩))
    · exact Or.inl (Or.inr h)
    · exact Or.inr h

/-- Claim C5 as amended: formatVersion returns its input unchanged exactly
when the input is empty, starts with one of the four characters caret,
tilde, greater-than or less-than, contains a space, or contains the
or-combinator; every other version string is returned with the caret
prepended. -/
theorem c5_amended (v : Str) :
    (formatVersion v = v ↔
      v = [] ∨ (∃ c rest, v = c :: rest ∧ CodeRangeOp c) ∨
      HasSub (str " ") v ∨ HasSub (str "||") v) ∧
    (∀ c rest, v = c :: rest → ¬ CodeRangeOp c →
      ¬ HasSub (str " ") v → ¬ HasSub (str "||") v →
      formatVersion v = '^' :: v) := by
  constructor
  · constructor
    · intro h
      by_cases hv : v = []
      · exact Or.inl hv
      · by_cases hcond : formatKeep v = true
        · exact Or.inr ((formatKeep_iff v).mp hcond)
        · unfold formatVersion at h
          rw [if_neg hv, if_neg hcond] at h
          have := congrArg List.length h
          simp at this
    · intro h
      rcases h with hv | hrest
      · simp [formatVersion, hv]
      · have hcond := (formatKeep_iff v).mpr hrest
        by_cases hv : v = []
        · simp [formatVersion, hv]
        · unfold formatVersion
          rw [if_neg hv, if_pos hcond]
  · intro c rest hvr hop hsp hcomb
    have hcond : ¬ (formatKeep v = true) := by
      intro hc
      rcases (formatKeep_iff v).mp hc with ⟨c', rest', he, hc'⟩ | h | h
      · rw [hvr] at he
        injection he with h1 h2
        subst h1
        exact hop hc'
      · exact hsp h
      · exact hcomb h
    unfold formatVersion
    rw [if_neg (by simp [hvr]), if_neg hcond]

/-- Witness for the amended claim C5: a bare version gains the caret, a
tilde version is kept. -/
theorem c5_amended_witness :
    formatVersion (str "4.17.0") = '^' :: str "4.17.0" ∧
    formatVersion (str "~4.17.0") = str "~4.17.0" := by
  constructor
  · exact (c5_amended (str "4.17.0")).2 '4' (str ".17.0") rfl
      (by intro h; rcases h with h | h | h | h <;> simp at h)
      (not_hasSub _ _ rfl) (not_hasSub _ _ rfl)
  · exact (c5_amended (str "~4.17.0")).1.mpr
      (Or.inr (Or.inl ⟨'~', str "4.17.0", rfl, Or.inr (Or.inl rfl)⟩))

/-- The per-entry emission exactly as claim C9 words it: skip unknown and
removal-sentinel versions, skip packages not declared in the section, skip
entries whose declared string equals the raw proposed string, and otherwise
emit the Change with the declared literal as fromVersion and the formatted
proposed version as toVersion. -/
def claimC9emit (deps : DepMap) (ty : DepType) (e : Str × Str) : Option Change :=
  if isUnknownVersion (some e.2) || isRemoveVersion (some e.2) then none
  else
    match lookupKey deps e.1 with
    | none => none
    | some cur =>
      if cur ≠ e.2 then some ⟨e.1, cur, formatVersion e.2, ty⟩ else none

/-- The change list exactly as claim C9 words it, per section in the
solution's iteration order. -/
def claimC9changes (m : Manifest) (s : Solution) : List Change :=
  (match m.dependencies with
   | none => []
   | some deps => s.dependencies.filterMap (claimC9emit deps DepType.dependency)) ++
  (match m.devDependencies with
   | none => []
   | some deps => s.devDependencies.filterMap (claimC9emit deps DepType.devDependency))

/-- Claim C9 is false on the code: a manifest declaring package a with the
empty version string and a solution proposing 1.0.0 for a satisfies every
condition the claim lists (declared, differing), yet getChanges emits
nothing, because the source's truthiness guard drops the falsy empty
string. -/
theorem c9_counterexample :
    getChanges ⟨some [(str "a", [])], none⟩ ⟨[(str "a", str "1.0.0")], []⟩ = [] ∧
    claimC9changes ⟨some [(str "a", [])], none⟩ ⟨[(str "a", str "1.0.0")], []⟩ =
      [⟨str "a", [], str "^1.0.0", DepType.dependency⟩] := by
  constructor
  · rfl
  · rfl

/-- The per-entry emission of claim C9 as amended: additionally require the
declared version string to be non-empty. -/
def amendedC9emit (deps : DepMap) (ty : DepType) (e : Str × Str) : Option Change :=
  if isUnknownVersion (some e.2) || isRemoveVersion (some e.2) then none
  else
    match lookupKey deps e.1 with
    | none => none
    | some cur =>
      if cur ≠ [] ∧ cur ≠ e.2 then some ⟨e.1, cur, formatVersion e.2, ty⟩ else none

/-- The change list of claim C9 as amended. -/
def amendedC9changes (m : Manifest) (s : Solution) : List Change :=
  (match m.dependencies with
   | none => []
   | some deps => s.dependencies.filterMap (amendedC9emit deps DepType.dependency)) ++
  (match m.devDependencies with
   | none => []
   | some deps => s.devDependencies.filterMap (amendedC9emit deps DepType.devDependency))

/-- Claim C9 as amended: getChanges emits, per section in the solution's
iteration order, exactly the entries whose proposed version is neither
unknown nor a removal sentinel, whose package is declared in that section
with a non-empty version string, and whose declared string differs from the
raw proposed string; each Change carries the declared literal and the
formatted proposed version. -/
theorem c9_amended (m : Manifest) (s : Solution) :
    getChanges m s = amendedC9changes m s := by
  obtain ⟨d, dd⟩ := m
  cases d <;> cases dd <;> rfl

/-- Inversion of one emitted change of one section block. -/
theorem sectionEmit_some {deps : DepMap} {ty : DepType} {e : Str × Str} {c : Change}
    (h : sectionEmit deps ty e = some c) :
    c.package = e.1 ∧ c.type = ty ∧ lookupKey deps e.1 = some c.fromVersion ∧
    c.fromVersion ≠ [] ∧ c.fromVersion ≠ e.2 ∧ c.toVersion = formatVersion e.2 ∧
    isUnknownVersion (some e.2) = false ∧ isRemoveVersion (some e.2) = false := by
  unfold sectionEmit at h
  split at h
  · cases h
  · rename_i hb
    simp only [Bool.or_eq_true, not_or, Bool.not_eq_true] at hb
    split at h
    · cases h
    · rename_i cur hl
      split at h
      · rename_i hcur
        cases h
        exact ⟨rfl, rfl, hl, hcur.1, hcur.2, rfl, hb.1, hb.2⟩
      · cases h

/-- Membership inversion for one section block of getChanges. -/
theorem mem_sectionChanges {cur : Option DepMap} {prop : DepMap} {ty : DepType} {c : Change}
    (h : c ∈ sectionChanges cur prop ty) :
    ∃ deps e, cur = some deps ∧ e ∈ prop ∧ sectionEmit deps ty e = some c := by
  cases cur with
  | none => simp [sectionChanges] at h
  | some deps =>
    rcases List.mem_filterMap.mp h with ⟨e, he, hemit⟩
    exact ⟨deps, e, rfl, he, hemit⟩

/-- Claim C10: getChanges emits no Change for a package whose declared
version string in the targeted section is empty, and no Change at all for a
section whose mapping is absent from the parsed manifest. -/
theorem c10_skip_empty_and_absent (m : Manifest) (s : Solution) :
    (m.dependencies = none → ∀ c ∈ getChanges m s, c.type = DepType.devDependency) ∧
    (m.devDependencies = none → ∀ c ∈ getChanges m s, c.type = DepType.dependency) ∧
    (∀ deps pkg, m.dependencies = some deps → lookupKey deps pkg = some [] →
      ∀ c ∈ getChanges m s, c.type = DepType.dependency → c.package ≠ pkg) ∧
    (∀ deps pkg, m.devDependencies = some deps → lookupKey deps pkg = some [] →
      ∀ c ∈ getChanges m s, c.type = DepType.devDependency → c.package ≠ pkg) := by
  refine ⟨?_, ?_, ?_, ?_⟩
  · intro hd c hc
    rcases List.mem_append.mp hc with h | h
    · rw [hd] at h
      simp [sectionChanges] at h
    · rcases mem_sectionChanges h with ⟨deps, e, _, _, hemit⟩
      exact (sectionEmit_some hemit).2.1
  · intro hd c hc
    rcases List.mem_append.mp hc with h | h
    · rcases mem_sectionChanges h with ⟨deps, e, _, _, hemit⟩
      exact (sectionEmit_some hemit).2.1
    · rw [hd] at h
      simp [sectionChanges] at h
  · intro deps pkg hd hl c hc hty
    intro hpkg
    rcases List.mem_append.mp hc with h | h
    · rw [hd] at h
      rcases mem_sectionChanges h with ⟨deps', e, hsome, he, hemit⟩
      injection hsome with hdeq
      subst hdeq
      obtain ⟨hp, _, hlk, hne, _⟩ := sectionEmit_some hemit
      rw [hp] at hpkg
      rw [hpkg] at hlk
      rw [hl] at hlk
      injection hlk with hvl
      exact hne hvl.symm
    · rcases mem_sectionChanges h with ⟨_, _, _, _, hemit⟩
      have hty2 := (sectionEmit_some hemit).2.1
      rw [hty] at hty2
      cases hty2
  · intro deps pkg hd hl c hc hty
    intro hpkg
    rcases List.mem_append.mp hc with h | h
    · rcases mem_sectionChanges h with ⟨_, _, _, _, hemit⟩
      have hty2 := (sectionEmit_some hemit).2.1
      rw [hty] at hty2
      cases hty2
    · rw [hd] at h
      rcases mem_sectionChanges h with ⟨deps', e, hsome, he, hemit⟩
      injection hsome with hdeq
      subst hdeq
      obtain ⟨hp, _, hlk, hne, _⟩ := sectionEmit_some hemit
      rw [hp] at hpkg
      rw [hpkg] at hlk
      rw [hl] at hlk
      injection hlk with hvl
      exact hne hvl.symm

/-- Witness for claim C10 at a concrete manifest whose dependencies section
is absent and whose devDependencies declare package a with the empty
string. -/
theorem c10_witness :
    (∀ c ∈ getChanges ⟨none, some [(str "a", [])]⟩
        ⟨[(str "b", str "1.0.0")], [(str "a", str "2.0.0")]⟩,
      c.type = DepType.devDependency) ∧
    (∀ c ∈ getChanges ⟨none, some [(str "a", [])]⟩
        ⟨[(str "b", str "1.0.0")], [(str "a", str "2.0.0")]⟩,
      c.type = DepType.devDependency → c.package ≠ str "a") := by
  constructor
  · exact (c10_skip_empty_and_absent ⟨none, some [(str "a", [])]⟩
      ⟨[(str "b", str "1.0.0")], [(str "a", str "2.0.0")]⟩).1 rfl
  · exact (c10_skip_empty_and_absent ⟨none, some [(str "a", [])]⟩
      ⟨[(str "b", str "1.0.0")], [(str "a", str "2.0.0")]⟩).2.2.2 [(str "a", [])] (str "a") rfl rfl

/-- Literal-prefix match: consume pat from the front of s, returning the
rest. Package names and versions are regex-escaped in the source, so they
match as literal text. -/
def matchLit : Str → Str → Option Str
  | [], s => some s
  | _ :: _, [] => none
  | p :: ps, c :: cs => if c = p then matchLit ps cs else none

/-- Leftmost-match search (RegExp.exec of the patterns modelled here): the
first index at which the matcher succeeds, with the matcher's result. -/
def findPat {α : Type} (f : Str → Option α) : Str → Option (Nat × α)
  | [] => none
  | s@(_ :: rest) =>
    match f s with
    | some a => some (0, a)
    | none => (findPat f rest).map fun p => (p.1 + 1, p.2)

/-- The section-header pattern (quoted name, optional whitespace, colon,
optional whitespace, open brace); the result is the match length. -/
def tryHeader (sec : Str) (s : Str) : Option Nat :=
  match matchLit ('"' :: sec ++ ['"']) s with
  | none => none
  | some r1 =>
    let n1 := (r1.takeWhile isWsChar).length
    match r1.dropWhile isWsChar with
    | ':' :: r2 =>
      let n2 := (r2.takeWhile isWsChar).length
      match r2.dropWhile isWsChar with
      | '\x7b' :: _ => some (sec.length + n1 + n2 + 4)
      | _ => none
    | _ => none

/-- The package pattern of replaceVersionInSection: quoted package name,
optional whitespace, colon, optional whitespace, quote, the from version,
quote. The result is the length of capture group 1 (through the version's
opening quote) and the whole match length. -/
def tryDecl (pkg fromV : Str) (s : Str) : Option (Nat × Nat) :=
  match matchLit ('"' :: pkg ++ ['"']) s with
  | none => none
  | some r1 =>
    let n1 := (r1.takeWhile isWsChar).length
    match matchLit [':'] (r1.dropWhile isWsChar) with
    | none => none
    | some r2 =>
      let n2 := (r2.takeWhile isWsChar).length
      match matchLit ['"'] (r2.dropWhile isWsChar) with
      | none => none
      | some r3 =>
        match matchLit (fromV ++ ['"']) r3 with
        | some _ =>
          some (pkg.length + n1 + n2 + 4, pkg.length + n1 + n2 + 4 + fromV.length + 1)
        | none => none

/-- The brace scan of the source: starting at a section header, depth goes
up on every open brace and down on every close brace; the result is the
offset one past the close brace that balances the depth after the section
has been entered. The count is an integer because the source's counter can
go below zero on malformed text. -/
def findClosingOff : Str → Int → Bool → Option Nat
  | [], _, _ => none
  | c :: rest, brace, inSec =>
    if c = '\x7b' then (findClosingOff rest (brace + 1) true).map (· + 1)
    else if c = '\x7d' then
      if inSec ∧ brace - 1 = 0 then some 1
      else (findClosingOff rest (brace - 1) inSec).map (· + 1)
    else (findClosingOff rest brace inSec).map (· + 1)

/-- GetSubstitution of the JavaScript String.replace: expand the
replacement template against the capture groups, the matched text and the
text before and after the match within the searched string. A dollar
followed by the number of an existing group is that group; dollar-dollar,
dollar-ampersand, dollar-backquote and dollar-quote have their JavaScript
meanings; anything else is literal. -/
def expandTemplate (groups : List Str) (matched pre post : Str) : Str → Str
  | [] => []
  | ['$'] => ['$']
  | '$' :: c :: rest =>
    if c = '$' then '$' :: expandTemplate groups matched pre post rest
    else if c = '&' then matched ++ expandTemplate groups matched pre post rest
    else if c = Char.ofNat 96 then pre ++ expandTemplate groups matched pre post rest
    else if c = Char.ofNat 39 then post ++ expandTemplate groups matched pre post rest
    else if c.isDigit ∧ c ≠ '0' then
      match groups.get? (c.toNat - 49) with
      | some g => g ++ expandTemplate groups matched pre post rest
      | none => '$' :: c :: expandTemplate groups matched pre post rest
    else '$' :: c :: expandTemplate groups matched pre post rest
  | c :: rest => c :: expandTemplate groups matched pre post rest

/-- PackageJsonService.replaceVersionInSection: locate the section header,
scan to its balancing close brace, find the quoted package and from-version
inside that slice only, and splice the replacement (capture group 1, the
new version, the closing quote) back at the same place. -/
def replaceVersionInSection (content : Str) (sec pkg fromV toV : Str) : Str × Bool :=
  match findPat (tryHeader sec) content with
  | none => (content, false)
  | some (sectionStart, _) =>
    let sectionEnd :=
      match findClosingOff (content.drop sectionStart) 0 false with
      | some off => sectionStart + off
      | none => sectionStart
    let sectionContent := (content.drop sectionStart).take (sectionEnd - sectionStart)
    match findPat (tryDecl pkg fromV) sectionContent with
    | none => (content, false)
    | some (idx, lens) =>
      let g1 := (sectionContent.drop idx).take lens.1
      let matched := (sectionContent.drop idx).take lens.2
      let pre := sectionContent.take idx
      let post := sectionContent.drop (idx + lens.2)
      let repl := expandTemplate [g1, ['"']] matched pre post (str "$1" ++ toV ++ str "$2")
      (content.take sectionStart ++ (pre ++ repl ++ post) ++ content.drop sectionEnd, true)

/-- String.split on one character (the line split of the source). -/
def splitOnChar (c : Char) : Str → List Str
  | [] => [[]]
  | a :: rest =>
    if a = c then [] :: splitOnChar c rest
    else
      match splitOnChar c rest with
      | [] => [[a]]
      | h :: t => (a :: h) :: t

/-- Array.join on one character (the line rejoin of the source). -/
def intercalateChar (c : Char) : List Str → Str
  | [] => []
  | [l] => l
  | l :: ls => l ++ c :: intercalateChar c ls

/-- Join with a separator string (Array.join of updateEngines). -/
def joinSep (sep : Str) : List Str → Str
  | [] => []
  | [l] => l
  | l :: ls => l ++ sep ++ joinSep sep ls

/-- The whole-line package pattern of removePackageFromSection: optional
leading whitespace, the quoted package, colon, a quoted value, an optional
trailing comma, optional trailing whitespace, end of line. -/
def linePackageTest (pkg : Str) (line : Str) : Bool :=
  match matchLit ('"' :: pkg ++ ['"']) (line.dropWhile isWsChar) with
  | none => false
  | some r1 =>
    match r1.dropWhile isWsChar with
    | ':' :: r2 =>
      match r2.dropWhile isWsChar with
      | '"' :: r3 =>
        match r3.dropWhile (fun c => c ≠ '"') with
        | '"' :: r4 =>
          match r4.dropWhile isWsChar with
          | [] => true
          | ',' :: r5 => (r5.dropWhile isWsChar).isEmpty
          | _ => false
        | _ => false
      | _ => false
    | _ => false

/-- line.trimEnd().endsWith of the source: the last non-whitespace
character is a comma. -/
def endsWithComma (s : Str) : Bool :=
  match s.reverse.dropWhile isWsChar with
  | c :: _ => c = ','
  | [] => false

/-- prevLine.replace of the source's comma repair: drop the last comma when
only whitespace follows it, keeping that whitespace. -/
def stripTrailingCommaLine (line : Str) : Str :=
  match line.reverse.dropWhile isWsChar with
  | c :: core' =>
    if c = ',' then core'.reverse ++ (line.reverse.takeWhile isWsChar).reverse
    else line
  | [] => line

/-- The line scan of removePackageFromSection: enter the section on the
line containing the quoted section name, then track brace depth per line;
report the index of the first line matching the package pattern together
with its trailing-comma flag, or stop once the depth balances after the
first line. -/
def findPackageLineAux (sec pkg : Str) : List Str → Nat → Bool → Int → Option (Nat × Bool)
  | [], _, _, _ => none
  | line :: rest, i, inSec, brace =>
    let inSec' := inSec || containsSub line ('"' :: sec ++ ['"'])
    if inSec' then
      let brace' := brace + (line.count '\x7b' : Int) - (line.count '\x7d' : Int)
      if linePackageTest pkg line then some (i, endsWithComma line)
      else if brace' = 0 ∧ 0 < i then none
      else findPackageLineAux sec pkg rest (i + 1) inSec' brace'
    else findPackageLineAux sec pkg rest (i + 1) inSec' brace

/-- The scan of removePackageFromSection over the split lines. -/
def findPackageLine (lines : List Str) (sec pkg : Str) : Option (Nat × Bool) :=
  findPackageLineAux sec pkg lines 0 false 0

/-- PackageJsonService.removePackageFromSection: delete the found line;
when it had no trailing comma and the previous line ends with one, strip
that comma from the previous line. -/
def removePackageFromSection (content : Str) (sec pkg : Str) : Str × Bool :=
  let lines := splitOnChar '\n' content
  match findPackageLine lines sec pkg with
  | none => (content, false)
  | some (i, hasComma) =>
    let lines1 := lines.eraseIdx i
    let lines2 :=
      if hasComma = false ∧ 0 < i then
        match lines1.get? (i - 1) with
        | some prev =>
          if endsWithComma prev then lines1.set (i - 1) (stripTrailingCommaLine prev)
          else lines1
        | none => lines1
      else lines1
    (intercalateChar '\n' lines2, true)

/-- The quoted-field pattern of updateEngines (the version and name
patterns): quoted field name, optional whitespace, colon, optional
whitespace, a quoted value; the result is the match length. -/
def tryQuotedField (name : Str) (s : Str) : Option Nat :=
  match matchLit ('"' :: name ++ ['"']) s with
  | none => none
  | some r1 =>
    let n1 := (r1.takeWhile isWsChar).length
    match r1.dropWhile isWsChar with
    | ':' :: r2 =>
      let n2 := (r2.takeWhile isWsChar).length
      match r2.dropWhile isWsChar with
      | '"' :: r3 =>
        let nv := (r3.takeWhile (fun c => c ≠ '"')).length
        match r3.dropWhile (fun c => c ≠ '"') with
        | '"' :: _ => some (name.length + n1 + n2 + nv + 5)
        | _ => none
      | _ => none
    | _ => none

/-- The engine-key pattern of updateEngines: capture group 1 is the quoted
key, optional whitespace, colon, optional whitespace; the whole match adds
the quoted value. The result is the group length and the match length. -/
def tryKeyColon (key : Str) (s : Str) : Option (Nat × Nat) :=
  match matchLit ('"' :: key ++ ['"']) s with
  | none => none
  | some r1 =>
    let n1 := (r1.takeWhile isWsChar).length
    match r1.dropWhile isWsChar with
    | ':' :: r2 =>
      let n2 := (r2.takeWhile isWsChar).length
      match r2.dropWhile isWsChar with
      | '"' :: r3 =>
        let nv := (r3.takeWhile (fun c => c ≠ '"')).length
        match r3.dropWhile (fun c => c ≠ '"') with
        | '"' :: _ => some (key.length + n1 + n2 + 3, key.length + n1 + n2 + nv + 5)
        | _ => none
      | _ => none
    | _ => none

/-- The has-entries pattern of updateEngines: some quoted non-empty key,
optional whitespace, colon, optional whitespace, a quoted value. -/
def tryAnyKV (s : Str) : Option Unit :=
  match s with
  | '"' :: r1 =>
    if (r1.takeWhile (fun c => c ≠ '"')).length = 0 then none
    else
      match r1.dropWhile (fun c => c ≠ '"') with
      | '"' :: r2 =>
        match r2.dropWhile isWsChar with
        | ':' :: r3 =>
          match r3.dropWhile isWsChar with
          | '"' :: r4 =>
            match r4.dropWhile (fun c => c ≠ '"') with
            | '"' :: _ => some ()
            | _ => none
          | _ => none
        | _ => none
      | _ => none
  | _ => none

/-- String.lastIndexOf for one character. -/
def lastIndexOfCharAux (c : Char) : Str → Nat → Option Nat → Option Nat
  | [], _, acc => acc
  | a :: rest, i, acc =>
    lastIndexOfCharAux c rest (i + 1) (if a = c then some i else acc)

/-- String.lastIndexOf for one character, none when absent. -/
def lastIndexOfChar (s : Str) (c : Char) : Option Nat := lastIndexOfCharAux c s 0 none

/-- The fresh engines block text built by updateEngines when none exists. -/
def buildEnginesStr (entries : List (Str × Str)) : Str :=
  str "\"engines\": \x7b\n" ++
  joinSep (str ",\n")
    (entries.map fun kv => str "    \"" ++ kv.1 ++ str "\": \"" ++ kv.2 ++ str "\"") ++
  str "\n  \x7d"

/-- PackageJsonService.updateEngines. The engines argument is
Object.entries of the engines record in key insertion order (node before
npm); an absent key is simply not listed and an empty value is falsy and
skipped, matching the source's truthiness test. When a block exists, each
non-empty key is replaced in place or inserted before the block's closing
brace; otherwise a new block is inserted after the version (or name) field,
and the count of non-empty keys is reported even when no insertion point
exists. -/
def updateEngines (content : Str) (engines : List (Str × Str)) : Str × Nat :=
  match findPat (tryHeader (str "engines")) content with
  | some (enginesStart, _) =>
    let enginesEnd :=
      match findClosingOff (content.drop enginesStart) 0 false with
      | some off => enginesStart + off
      | none => enginesStart
    let enginesContent := (content.drop enginesStart).take (enginesEnd - enginesStart)
    let stepped := engines.foldl (fun (acc : Str × Nat) kv =>
      if kv.2 = [] then acc
      else
        match findPat (tryKeyColon kv.1) acc.1 with
        | some (idx, lens) =>
          let g1 := (acc.1.drop idx).take lens.1
          let matched := (acc.1.drop idx).take lens.2
          let pre := acc.1.take idx
          let post := acc.1.drop (idx + lens.2)
          let repl := expandTemplate [g1] matched pre post (str "$1\"" ++ kv.2 ++ ['"'])
          (pre ++ repl ++ post, acc.2 + 1)
        | none =>
          let cb := (lastIndexOfChar acc.1 '\x7d').getD 0
          let beforeBrace := acc.1.take cb
          let afterBrace := acc.1.drop cb
          if (findPat tryAnyKV beforeBrace).isSome then
            let tw := (beforeBrace.reverse.takeWhile isWsChar).reverse
            let core := (beforeBrace.reverse.dropWhile isWsChar).reverse
            (core ++ expandTemplate [tw] tw core []
              (str ",\n    \"" ++ kv.1 ++ str "\": \"" ++ kv.2 ++ str "\"$1") ++ afterBrace,
             acc.2 + 1)
          else
            (beforeBrace ++ str "\n    \"" ++ kv.1 ++ str "\": \"" ++ kv.2 ++ str "\"\n  " ++
               afterBrace,
             acc.2 + 1)) (enginesContent, 0)
    (content.take enginesStart ++ stepped.1 ++ content.drop enginesEnd, stepped.2)
  | none =>
    let entries := engines.filter fun kv => kv.2 ≠ []
    let updated := entries.length
    if 0 < updated then
      let enginesStr := buildEnginesStr entries
      let insertMatch :=
        match findPat (tryQuotedField (str "version")) content with
        | some r => some r
        | none => findPat (tryQuotedField (str "name")) content
      match insertMatch with
      | some (idx, len) =>
        let insertPoint := idx + len
        let afterInsert := content.drop insertPoint
        let wsLen := (afterInsert.takeWhile isWsChar).length
        match afterInsert.drop wsLen with
        | ',' :: _ =>
          let afterComma := insertPoint + wsLen + 1
          (content.take afterComma ++ str "\n  " ++ enginesStr ++ [','] ++
             content.drop afterComma,
           updated)
        | _ =>
          (content.take insertPoint ++ str ",\n  " ++ enginesStr ++ content.drop insertPoint,
           updated)
      | none => (content, updated)
    else (content, 0)

/-- A removal request of applySurgicalFixes: package, reason, section. -/
structure Removal where
  package : Str
  reason : Str
  type : DepType
deriving DecidableEq

/-- The changes loop of applySurgicalFixes: apply each Change via
replaceVersionInSection, counting those whose pattern was found. -/
def applyChanges (content : Str) (changes : List Change) : Str × Nat :=
  changes.foldl (fun acc ch =>
    let sec := match ch.type with
      | DepType.devDependency => str "devDependencies"
      | DepType.dependency => str "dependencies"
    let r := replaceVersionInSection acc.1 sec ch.package ch.fromVersion ch.toVersion
    if r.2 then (r.1, acc.2 + 1) else acc) (content, 0)

/-- The removals loop of applySurgicalFixes. -/
def applyRemovals (content : Str) (removals : List Removal) : Str × Nat :=
  removals.foldl (fun acc rm =>
    let sec := match rm.type with
      | DepType.devDependency => str "devDependencies"
      | DepType.dependency => str "dependencies"
    let r := removePackageFromSection acc.1 sec rm.package
    if r.2 then (r.1, acc.2 + 1) else acc) (content, 0)

/-- The pure text transformation of applySurgicalFixes: version changes,
then removals, then engine updates; the result carries the new text and
the three counts. -/
def applySurgicalFixesContent (content : Str) (changes : List Change)
    (removals : List Removal) (engines : List (Str × Str)) :
    Str × Nat × Nat × Nat :=
  let c1 := applyChanges content changes
  let c2 := applyRemovals c1.1 removals
  let c3 := if engines ≠ [] then updateEngines c2.1 engines else (c2.1, 0)
  (c3.1, c1.2, c2.2, c3.2)

/-- One file-system access of applySurgicalFixes. -/
inductive FsEvent
  | readFile (path : Str) (content : Str)
  | writeFile (path : Str) (content : Str)
deriving DecidableEq

/-- path.join of the directory with one of the two fixed file names. -/
def pathJoin (dir name : Str) : Str := dir ++ '/' :: name

/-- PackageJsonService.applySurgicalFixes as the ordered trace of its
file-system accesses plus its result: read the manifest, write the backup
with exactly the text read, transform in memory, write the manifest.
`content` is the on-disk text returned by the successful read. -/
def applySurgicalFixes (dir content : Str) (changes : List Change)
    (removals : List Removal) (engines : List (Str × Str)) :
    List FsEvent × (Str × Nat × Nat × Nat) :=
  let filePath := pathJoin dir (str "package.json")
  let backupPath := pathJoin dir (str "package.json.bak")
  let result := applySurgicalFixesContent content changes removals engines
  ([FsEvent.readFile filePath content,
    FsEvent.writeFile backupPath content,
    FsEvent.writeFile filePath result.1],
   result)

/-- Claim C8: in every invocation whose manifest read succeeds, the trace
of applySurgicalFixes contains a write of the backup file holding exactly
the text read, this write precedes the write of the manifest file, and no
write to the manifest file happens before it. -/
theorem c8_backup_before_overwrite (dir content : Str) (changes : List Change)
    (removals : List Removal) (engines : List (Str × Str)) :
    ∃ i j, i < j ∧
      (applySurgicalFixes dir content changes removals engines).1.get? i =
        some (FsEvent.writeFile (pathJoin dir (str "package.json.bak")) content) ∧
      (∃ c, (applySurgicalFixes dir content changes removals engines).1.get? j =
        some (FsEvent.writeFile (pathJoin dir (str "package.json")) c)) ∧
      ∀ k, k < i → ∀ c,
        (applySurgicalFixes dir content changes removals engines).1.get? k ≠
          some (FsEvent.writeFile (pathJoin dir (str "package.json")) c) := by
  refine ⟨1, 2, by omega, rfl, ⟨_, rfl⟩, ?_⟩
  intro k hk c
  have hk0 : k = 0 := by omega
  subst hk0
  simp [applySurgicalFixes]

/-- JSON whitespace (the four characters the JSON grammar allows between
tokens). -/
def isWsJson (c : Char) : Bool := c = ' ' || c = '\t' || c = '\n' || c = '\r'

/-- One hexadecimal digit. -/
def isHexDigit (c : Char) : Bool :=
  c.isDigit || ('a' ≤ c ∧ c ≤ 'f') || ('A' ≤ c ∧ c ≤ 'F')

/-- Modelled from the spec: the document format the patch engine must keep
re-parseable is JSON (JSON.parse is a platform function, not repository
code). This consumes one JSON string token including its escapes, returning
the rest of the input. -/
def jsonStringBody : Str → Option Str
  | [] => none
  | '"' :: rest => some rest
  | ['\\'] => none
  | '\\' :: c :: rest =>
    if c = '"' || c = '\\' || c = '/' || c = 'b' || c = 'f' || c = 'n' ||
       c = 'r' || c = 't' then jsonStringBody rest
    else if c = 'u' then
      match rest with
      | a :: b :: c2 :: d :: rest2 =>
        if isHexDigit a && isHexDigit b && isHexDigit c2 && isHexDigit d then
          jsonStringBody rest2
        else none
      | _ => none
    else none
  | _ :: rest => jsonStringBody rest

/-- One JSON string token including its opening quote. -/
def jsonStringTok : Str → Option Str
  | '"' :: rest => jsonStringBody rest
  | _ => none

/-- Consume the digits and optional fraction and exponent after the first
integer digit of a JSON number. -/
def jsonNumberTail (s : Str) : Option Str :=
  let s1 := s.dropWhile Char.isDigit
  let s2 := match s1 with
    | '.' :: r =>
      if (r.takeWhile Char.isDigit).length = 0 then none
      else some (r.dropWhile Char.isDigit)
    | r => some r
  match s2 with
  | none => none
  | some s3 =>
    match s3 with
    | c :: r =>
      if c = 'e' || c = 'E' then
        let r2 := match r with
          | '+' :: r3 => r3
          | '-' :: r3 => r3
          | r3 => r3
        if (r2.takeWhile Char.isDigit).length = 0 then none
        else some (r2.dropWhile Char.isDigit)
      else some (c :: r)
    | [] => some []

/-- Consume one JSON number token (a leading zero must not be followed by
another digit). -/
def jsonNumberTok (s : Str) : Option Str :=
  let s1 := match s with
    | '-' :: r => r
    | r => r
  match s1 with
  | '0' :: r =>
    (match r with
     | d :: _ => if d.isDigit then none else jsonNumberTail r
     | [] => some [])
  | c :: r =>
    if c.isDigit then jsonNumberTail (c :: r)
    else none
  | [] => none

/-- The parsing mode of the JSON syntax checker: one value, the members of
an object after its open brace (first key next), or the items of an array
after its open bracket (first item next). -/
inductive PMode
  | value
  | members
  | items

/-- Modelled from the spec: a fuel-indexed JSON syntax checker, consuming
one production of the given mode and returning the rest of the input. -/
def pj : Nat → PMode → Str → Option Str
  | 0, _, _ => none
  | Nat.succ f, PMode.value, s =>
    let s := s.dropWhile isWsJson
    match s with
    | '\x7b' :: rest =>
      (match rest.dropWhile isWsJson with
       | '\x7d' :: r2 => some r2
       | r2 => pj f PMode.members r2)
    | '[' :: rest =>
      (match rest.dropWhile isWsJson with
       | ']' :: r2 => some r2
       | r2 => pj f PMode.items r2)
    | '"' :: _ => jsonStringTok s
    | _ =>
      if startsWithL (str "true") s then some (s.drop 4)
      else if startsWithL (str "false") s then some (s.drop 5)
      else if startsWithL (str "null") s then some (s.drop 4)
      else jsonNumberTok s
  | Nat.succ f, PMode.members, s =>
    match jsonStringTok s with
    | none => none
    | some s1 =>
      match s1.dropWhile isWsJson with
      | ':' :: s2 =>
        match pj f PMode.value s2 with
        | none => none
        | some s3 =>
          match s3.dropWhile isWsJson with
          | ',' :: s4 => pj f PMode.members (s4.dropWhile isWsJson)
          | '\x7d' :: s4 => some s4
          | _ => none
      | _ => none
  | Nat.succ f, PMode.items, s =>
    match pj f PMode.value s with
    | none => none
    | some s1 =>
      match s1.dropWhile isWsJson with
      | ',' :: s2 => pj f PMode.items s2
      | ']' :: s2 => some s2
      | _ => none

/-- Modelled from the spec: whether the text is one valid JSON object with
nothing but whitespace after it (the round-trip validity the spec
requires of the patch engine's output). -/
def jsonValidObject (s : Str) : Bool :=
  match s.dropWhile isWsJson with
  | '\x7b' :: _ =>
    (match pj (s.length + 2) PMode.value s with
     | some rest => (rest.dropWhile isWsJson).isEmpty
     | none => false)
  | _ => false

/-- The body of an escape-free JSON string: the characters up to the
closing quote, with the rest of the input. -/
def simpleStringBody : Str → Option (Str × Str)
  | [] => none
  | '"' :: rest => some ([], rest)
  | '\\' :: _ => none
  | c :: rest => (simpleStringBody rest).map fun p => (c :: p.1, p.2)

/-- One escape-free JSON string token, returning its content and the rest
of the input. -/
def parseSimpleString : Str → Option (Str × Str)
  | '"' :: rest => simpleStringBody rest
  | _ => none

/-- Modelled from the spec: the parsed view JSON.parse gives the manifest
loader, restricted to the member list of a flat object of escape-free
string values, starting after the open brace at the first key. -/
def parseFlatFields : Nat → Str → DepMap → Option (DepMap × Str)
  | 0, _, _ => none
  | Nat.succ f, s, acc =>
    match parseSimpleString s with
    | none => none
    | some (k, s1) =>
      match s1.dropWhile isWsJson with
      | ':' :: s2 =>
        match parseSimpleString (s2.dropWhile isWsJson) with
        | none => none
        | some (v, s3) =>
          match s3.dropWhile isWsJson with
          | ',' :: s4 => parseFlatFields f (s4.dropWhile isWsJson) (acc ++ [(k, v)])
          | '\x7d' :: s4 => some (acc ++ [(k, v)], s4)
          | _ => none
      | _ => none

/-- A flat JSON object of escape-free string values, returning its
association list in member order. -/
def parseFlatObj (s : Str) : Option (DepMap × Str) :=
  match s with
  | '\x7b' :: rest =>
    (match rest.dropWhile isWsJson with
     | '\x7d' :: r2 => some ([], r2)
     | r2 => parseFlatFields (r2.length + 1) r2 [])
  | _ => none

/-- Record one parsed top-level member on the Manifest view: only the
dependencies and devDependencies sections are kept, a repeated key keeping
its last value as JSON.parse does. -/
def recordSection (acc : Manifest) (k : Str) (m : DepMap) : Manifest :=
  if k = str "dependencies" then { acc with dependencies := some m }
  else if k = str "devDependencies" then { acc with devDependencies := some m }
  else acc

/-- Modelled from the spec: the member list of the top-level manifest
object, whose values are escape-free strings, flat objects of such strings,
or the literals true and false, starting at the first key. -/
def parseTopFields : Nat → Str → Manifest → Option (Manifest × Str)
  | 0, _, _ => none
  | Nat.succ f, s, acc =>
    match parseSimpleString s with
    | none => none
    | some (k, s1) =>
      match s1.dropWhile isWsJson with
      | ':' :: s2 =>
        match
          (match s2.dropWhile isWsJson with
           | '\x7b' :: _ => (parseFlatObj (s2.dropWhile isWsJson)).map
               (fun (p : DepMap × Str) => (recordSection acc k p.1, p.2))
           | '"' :: _ => (parseSimpleString (s2.dropWhile isWsJson)).map
               (fun (p : Str × Str) => (acc, p.2))
           | r =>
             if startsWithL (str "true") r then some (acc, r.drop 4)
             else if startsWithL (str "false") r then some (acc, r.drop 5)
             else none) with
        | none => none
        | some (acc2, s3) =>
          match s3.dropWhile isWsJson with
          | ',' :: s4 => parseTopFields f (s4.dropWhile isWsJson) acc2
          | '\x7d' :: s4 => some (acc2, s4)
          | _ => none
      | _ => none

/-- Modelled from the spec: JSON.parse of a manifest text in the modelled
subset, giving the parsed view the change-set builder reads; none when the
text is outside the subset or malformed. -/
def parseManifest (s : Str) : Option Manifest :=
  match s.dropWhile isWsJson with
  | '\x7b' :: rest =>
    (match rest.dropWhile isWsJson with
     | '\x7d' :: r2 => if (r2.dropWhile isWsJson).isEmpty then some ⟨none, none⟩ else none
     | r2 =>
       match parseTopFields (r2.length + 1) r2 ⟨none, none⟩ with
       | some (m, r3) => if (r3.dropWhile isWsJson).isEmpty then some m else none
       | none => none)
  | _ => none

/-- Claim C1 names a code bug: the spec's idempotence invariant fails on
the real pipeline even when every textual application succeeds. From a
manifest declaring lodash at caret 4.17.0 and a solution proposing the
bare 4.17.21, getChanges emits one Change to the formatted caret 4.17.21;
the patch engine applies it, yet re-parsing and recomputing yields a
non-empty list again (caret 4.17.21 to itself, forever on every re-run):
the skip test compares the declared string with the raw pre-format
proposal while the writer writes the formatted one, so an applied entry
never registers as already matching. -/
theorem c1_code_bug_evidence :
    parseManifest (str "\x7b\"dependencies\": \x7b\"lodash\": \"^4.17.0\"\x7d\x7d") =
      some ⟨some [(str "lodash", str "^4.17.0")], none⟩ ∧
    getChanges ⟨some [(str "lodash", str "^4.17.0")], none⟩
        ⟨[(str "lodash", str "4.17.21")], []⟩ =
      [⟨str "lodash", str "^4.17.0", str "^4.17.21", DepType.dependency⟩] ∧
    (applySurgicalFixesContent (str "\x7b\"dependencies\": \x7b\"lodash\": \"^4.17.0\"\x7d\x7d")
        [⟨str "lodash", str "^4.17.0", str "^4.17.21", DepType.dependency⟩] [] []).1 =
      str "\x7b\"dependencies\": \x7b\"lodash\": \"^4.17.21\"\x7d\x7d" ∧
    parseManifest (str "\x7b\"dependencies\": \x7b\"lodash\": \"^4.17.21\"\x7d\x7d") =
      some ⟨some [(str "lodash", str "^4.17.21")], none⟩ ∧
    getChanges ⟨some [(str "lodash", str "^4.17.21")], none⟩
        ⟨[(str "lodash", str "4.17.21")], []⟩ =
      [⟨str "lodash", str "^4.17.21", str "^4.17.21", DepType.dependency⟩] := by
  refine ⟨rfl, rfl, rfl, rfl, rfl⟩

/-- Claim C3's failing input, as evidence for the code bug: a valid JSON
manifest formatted with a leading comma. Removing package aa (its line has
no trailing comma and the previous line ends with the open brace, so the
comma repair does not fire) leaves the next line's comma dangling right
after the open brace: the patch engine's output no longer parses as a JSON
object, violating the round-trip invariant the comma repair exists to
keep. -/
theorem c3_code_bug_evidence :
    jsonValidObject
      (str "\x7b\"dependencies\": \x7b\n\"aa\": \"1\"\n, \"bb\": \"2\"\x7d\x7d") = true ∧
    applySurgicalFixesContent
        (str "\x7b\"dependencies\": \x7b\n\"aa\": \"1\"\n, \"bb\": \"2\"\x7d\x7d")
        [] [⟨str "aa", str "deprecated", DepType.dependency⟩] [] =
      (str "\x7b\"dependencies\": \x7b\n, \"bb\": \"2\"\x7d\x7d", 0, 1, 0) ∧
    jsonValidObject (str "\x7b\"dependencies\": \x7b\n, \"bb\": \"2\"\x7d\x7d") = false := by
  refine ⟨rfl, rfl, rfl⟩

/-- Claim C2 is false on the code: on a manifest text with no engines
block, no version field and no name field, updateEngines with one
non-empty update key leaves the text unchanged but reports 1 key updated,
not 0: the source increments its counter while collecting the keys, before
the insertion-point search fails. -/
theorem c2_counterexample :
    findPat (tryHeader (str "engines")) (str "\x7b\"private\": true\x7d") = none ∧
    findPat (tryQuotedField (str "version")) (str "\x7b\"private\": true\x7d") = none ∧
    findPat (tryQuotedField (str "name")) (str "\x7b\"private\": true\x7d") = none ∧
    updateEngines (str "\x7b\"private\": true\x7d") [(str "node", str ">=18.0.0")] =
      (str "\x7b\"private\": true\x7d", 1) := by
  refine ⟨rfl, rfl, rfl, rfl⟩

/-- Claim C2 as amended: when the manifest text has no engines block and
neither a version nor a name field, updateEngines returns the text
unchanged, but reports the number of update keys with non-empty values
rather than 0. -/
theorem c2_amended (content : Str) (engines : List (Str × Str))
    (h1 : findPat (tryHeader (str "engines")) content = none)
    (h2 : findPat (tryQuotedField (str "version")) content = none)
    (h3 : findPat (tryQuotedField (str "name")) content = none) :
    updateEngines content engines =
      (content, (engines.filter fun kv => kv.2 ≠ []).length) := by
  unfold updateEngines
  rw [h1]
  simp only [h2, h3]
  by_cases hu : 0 < (engines.filter fun kv => kv.2 ≠ []).length
  · rw [if_pos hu]
  · rw [if_neg hu]
    have hz : (engines.filter fun kv => kv.2 ≠ []).length = 0 := by omega
    rw [hz]

/-- Witness for the amended claim C2 at a concrete input: one non-empty
key and one empty key give count 1 with the text unchanged. -/
theorem c2_amended_witness :
    updateEngines (str "\x7b\x7d") [(str "node", str ">=18.0.0"), (str "npm", [])] =
      (str "\x7b\x7d", 1) := by
  have h := c2_amended (str "\x7b\x7d") [(str "node", str ">=18.0.0"), (str "npm", [])]
    rfl rfl rfl
  exact h.trans rfl

theorem get?_eraseIdx_lt {α : Type} (l : List α) (i j : Nat) (h : j < i) :
    (l.eraseIdx i).get? j = l.get? j := by
  induction l generalizing i j with
  | nil => simp [List.eraseIdx]
  | cons a rest ih =>
    cases i with
    | zero => omega
    | succ i' =>
      cases j with
      | zero => simp [List.eraseIdx]
      | succ j' =>
        simp only [List.eraseIdx, List.get?]
        exact ih i' j' (by omega)

theorem stripTrailingComma_spec (prev : Str) (h : endsWithComma prev = true) :
    ∃ core tw, prev = core ++ ',' :: tw ∧ tw.all isWsChar = true ∧
      stripTrailingCommaLine prev = core ++ tw := by
  cases hd : prev.reverse.dropWhile isWsChar with
  | nil => simp [endsWithComma, hd] at h
  | cons c core' =>
    have hc : c = ',' := by simpa [endsWithComma, hd] using h
    subst hc
    refine ⟨core'.reverse, (prev.reverse.takeWhile isWsChar).reverse, ?_, ?_, ?_⟩
    · apply List.reverse_injective
      simp only [List.reverse_append, List.reverse_cons, List.reverse_reverse,
        List.append_assoc, List.cons_append, List.nil_append]
      conv_lhs => rw [← List.takeWhile_append_dropWhile (p := isWsChar) (l := prev.reverse)]
      rw [hd]
    · rw [List.all_eq_true]
      intro x hx
      rw [List.mem_reverse] at hx
      exact List.mem_takeWhile_imp hx
    · simp [stripTrailingCommaLine, hd]

/-- Claim C6: on the split lines, removing a package line that carries a
trailing comma splices out exactly that line, leaving every other line
(and so every comma elsewhere) unchanged; removing a line without a
trailing comma whose preceding line ends with a comma also strips exactly
that one trailing comma from the preceding line, all other lines again
unchanged. -/
theorem c6_comma_repair (content sec pkg : Str) :
    (∀ i, findPackageLine (splitOnChar '\n' content) sec pkg = some (i, true) →
      removePackageFromSection content sec pkg =
        (intercalateChar '\n' ((splitOnChar '\n' content).eraseIdx i), true)) ∧
    (∀ i prev, findPackageLine (splitOnChar '\n' content) sec pkg = some (i, false) →
      0 < i → (splitOnChar '\n' content).get? (i - 1) = some prev →
      endsWithComma prev = true →
      ∃ core tw, prev = core ++ ',' :: tw ∧ tw.all isWsChar = true ∧
        removePackageFromSection content sec pkg =
          (intercalateChar '\n'
            (((splitOnChar '\n' content).eraseIdx i).set (i - 1) (core ++ tw)), true)) := by
  constructor
  · intro i hfind
    simp [removePackageFromSection, hfind]
  · intro i prev hfind hi hget hcomma
    obtain ⟨core, tw, hdecomp, hallws, hstrip⟩ := stripTrailingComma_spec prev hcomma
    refine ⟨core, tw, hdecomp, hallws, ?_⟩
    have hget1 : ((splitOnChar '\n' content).eraseIdx i).get? (i - 1) = some prev := by
      rw [get?_eraseIdx_lt _ _ _ (by omega)]
      exact hget
    simp only [removePackageFromSection, hfind]
    rw [if_pos ⟨trivial, hi⟩]
    simp only [hget1]
    rw [if_pos hcomma, hstrip]

/-- Witness for claim C6 on a conventional two-entry manifest: removing a
with its trailing comma splices out one line; removing the last entry b
strips the comma from the a line. -/
theorem c6_comma_repair_witness :
    removePackageFromSection
        (str "\x7b\n  \"dependencies\": \x7b\n    \"a\": \"1\",\n    \"b\": \"2\"\n  \x7d\n\x7d")
        (str "dependencies") (str "a") =
      (intercalateChar '\n'
        ((splitOnChar '\n'
          (str "\x7b\n  \"dependencies\": \x7b\n    \"a\": \"1\",\n    \"b\": \"2\"\n  \x7d\n\x7d")).eraseIdx 2),
       true) ∧
    (∃ core tw, (str "    \"a\": \"1\",") = core ++ ',' :: tw ∧ tw.all isWsChar = true ∧
      removePackageFromSection
          (str "\x7b\n  \"dependencies\": \x7b\n    \"a\": \"1\",\n    \"b\": \"2\"\n  \x7d\n\x7d")
          (str "dependencies") (str "b") =
        (intercalateChar '\n'
          (((splitOnChar '\n'
            (str "\x7b\n  \"dependencies\": \x7b\n    \"a\": \"1\",\n    \"b\": \"2\"\n  \x7d\n\x7d")).eraseIdx 3).set 2
            (core ++ tw)),
         true)) := by
  constructor
  · exact (c6_comma_repair
      (str "\x7b\n  \"dependencies\": \x7b\n    \"a\": \"1\",\n    \"b\": \"2\"\n  \x7d\n\x7d")
      (str "dependencies") (str "a")).1 2 rfl
  · exact (c6_comma_repair
      (str "\x7b\n  \"dependencies\": \x7b\n    \"a\": \"1\",\n    \"b\": \"2\"\n  \x7d\n\x7d")
      (str "dependencies") (str "b")).2 3 (str "    \"a\": \"1\",") rfl (by omega) rfl rfl

theorem matchLit_sound (pat : Str) : ∀ s r, matchLit pat s = some r → s = pat ++ r := by
  induction pat with
  | nil =>
    intro s r h
    have hs : s = r := by
      simpa [matchLit] using h
    simp [hs]
  | cons p ps ih =>
    intro s r h
    cases s with
    | nil => simp [matchLit] at h
    | cons cH cs =>
      unfold matchLit at h
      by_cases hc : cH = p
      · rw [if_pos hc] at h
        subst hc
        simp [ih cs r h]
      · rw [if_neg hc] at h
        cases h

theorem findPat_some {α : Type} (f : Str → Option α) :
    ∀ (s : Str) (i : Nat) (a : α), findPat f s = some (i, a) →
      i ≤ s.length ∧ f (s.drop i) = some a := by
  intro s
  induction s with
  | nil =>
    intro i a h
    simp [findPat] at h
  | cons c rest ih =>
    intro i a h
    unfold findPat at h
    cases hf : f (c :: rest) with
    | some a' =>
      rw [hf] at h
      injection h with h1
      obtain ⟨h2, h3⟩ := Prod.mk.injEq .. ▸ h1
      subst h2
      subst h3
      exact ⟨by omega, hf⟩
    | none =>
      rw [hf] at h
      cases hrec : findPat f rest with
      | none =>
        rw [hrec] at h
        cases h
      | some p =>
        rw [hrec] at h
        injection h with h1
        obtain ⟨h2, h3⟩ := Prod.mk.injEq .. ▸ h1
        subst h2
        subst h3
        obtain ⟨hle, hfd⟩ := ih p.1 p.2 hrec
        exact ⟨by simpa using Nat.succ_le_succ hle, hfd⟩

/-- The text shape matched by the package pattern of
replaceVersionInSection: the quoted package, whitespace, colon, whitespace,
and the quoted from-version. -/
def DeclMatch (pkg fromV m : Str) : Prop :=
  ∃ ws1 ws2, (∀ c ∈ ws1, isWsChar c = true) ∧ (∀ c ∈ ws2, isWsChar c = true) ∧
    m = '"' :: pkg ++ '"' :: ws1 ++ ':' :: ws2 ++ '"' :: fromV ++ ['"']

theorem tryDecl_sound (pkg fromV s : Str) (g1 full : Nat)
    (h : tryDecl pkg fromV s = some (g1, full)) :
    ∃ m r, s = m ++ r ∧ m.length = full ∧ DeclMatch pkg fromV m := by
  unfold tryDecl at h
  cases h1 : matchLit ('"' :: pkg ++ ['"']) s with
  | none => rw [h1] at h; cases h
  | some r1 =>
    rw [h1] at h
    simp only at h
    cases h2 : matchLit [':'] (r1.dropWhile isWsChar) with
    | none => rw [h2] at h; cases h
    | some r2 =>
      rw [h2] at h
      simp only at h
      cases h3 : matchLit ['"'] (r2.dropWhile isWsChar) with
      | none => rw [h3] at h; cases h
      | some r3 =>
        rw [h3] at h
        simp only at h
        cases h4 : matchLit (fromV ++ ['"']) r3 with
        | none => rw [h4] at h; cases h
        | some r4 =>
          rw [h4] at h
          injection h with h5
          have hfull := congrArg Prod.snd h5
          simp only at hfull
          have e1 := matchLit_sound _ _ _ h1
          have e2 := matchLit_sound _ _ _ h2
          have e3 := matchLit_sound _ _ _ h3
          have e4 := matchLit_sound _ _ _ h4
          refine ⟨'"' :: pkg ++ '"' :: (r1.takeWhile isWsChar) ++
              ':' :: (r2.takeWhile isWsChar) ++ '"' :: fromV ++ ['"'], r4, ?_, ?_, ?_⟩
          · rw [e1]
            conv_lhs => rw [← List.takeWhile_append_dropWhile (p := isWsChar) (l := r1)]
            rw [e2]
            conv_lhs => rw [← List.takeWhile_append_dropWhile (p := isWsChar) (l := r2)]
            rw [e3, e4]
            simp
          · rw [← hfull]
            simp only [List.length_append, List.length_cons, List.length_nil]
            omega
          · refine ⟨r1.takeWhile isWsChar, r2.takeWhile isWsChar, ?_, ?_, rfl⟩
            · intro c hc
              exact List.mem_takeWhile_imp hc
            · intro c hc
              exact List.mem_takeWhile_imp hc

theorem splitOnChar_ne_nil (c : Char) (s : Str) : splitOnChar c s ≠ [] := by
  cases s with
  | nil => simp [splitOnChar]
  | cons a rest =>
    unfold splitOnChar
    by_cases h : a = c
    · simp [h]
    · simp only [if_neg h]
      cases hs : splitOnChar c rest <;> simp

theorem length_splitOnChar (c : Char) (s : Str) :
    (splitOnChar c s).length = s.count c + 1 := by
  induction s with
  | nil => simp [splitOnChar]
  | cons a rest ih =>
    unfold splitOnChar
    by_cases h : a = c
    · subst h
      simp [List.count_cons, ih]
    · simp only [if_neg h]
      cases hs : splitOnChar c rest with
      | nil => exact absurd hs (splitOnChar_ne_nil c rest)
      | cons hh tt =>
        rw [hs] at ih
        simp only [List.length_cons] at ih
        simp [List.count_cons, h, ih]

theorem splitOnChar_cons_eq (c : Char) (s : Str) :
    splitOnChar c (c :: s) = [] :: splitOnChar c s := by
  simp [splitOnChar]

theorem splitOnChar_cons_ne (c a : Char) (s : Str) (h : ¬ a = c) :
    splitOnChar c (a :: s) =
      (a :: (splitOnChar c s).headD []) :: (splitOnChar c s).tail := by
  cases hs : splitOnChar c s with
  | nil => exact absurd hs (splitOnChar_ne_nil c s)
  | cons hd tl =>
    simp only [splitOnChar, if_neg h, hs]
    simp

theorem splitOnChar_append (c : Char) (X Y : Str) :
    splitOnChar c (X ++ Y) =
      (splitOnChar c X).dropLast ++
        (splitOnChar c Y).modifyHead (fun h => (splitOnChar c X).getLastD [] ++ h) := by
  induction X with
  | nil =>
    cases hs : splitOnChar c Y with
    | nil => exact absurd hs (splitOnChar_ne_nil c Y)
    | cons hh tt => simp [splitOnChar, hs]
  | cons a X' ih =>
    by_cases h : a = c
    · rw [List.cons_append, h, splitOnChar_cons_eq, ih, splitOnChar_cons_eq]
      cases hs : splitOnChar c X' with
      | nil => exact absurd hs (splitOnChar_ne_nil c X')
      | cons hh tt =>
        cases tt with
        | nil => simp
        | cons t1 t2 => simp [List.getLastD_cons]
    · rw [List.cons_append, splitOnChar_cons_ne c a _ h, ih, splitOnChar_cons_ne c a _ h]
      cases hs : splitOnChar c X' with
      | nil => exact absurd hs (splitOnChar_ne_nil c X')
      | cons hh tt =>
        cases hy : splitOnChar c Y with
        | nil => exact absurd hy (splitOnChar_ne_nil c Y)
        | cons y0 yt =>
          cases tt with
          | nil => simp
          | cons t1 t2 => simp [List.getLastD_cons]

theorem splitOnChar_take_prefix (c : Char) (A X : Str) :
    (splitOnChar c (A ++ X)).take (A.count c) = (splitOnChar c A).dropLast := by
  rw [splitOnChar_append]
  have hlen : (splitOnChar c A).dropLast.length = A.count c := by
    simp [List.length_dropLast, length_splitOnChar]
  exact List.take_left' hlen

theorem splitOnChar_take_suffix (c : Char) (X B : Str) :
    (splitOnChar c (X ++ B)).reverse.take (B.count c) = (splitOnChar c B).tail.reverse := by
  rw [splitOnChar_append]
  cases hb : splitOnChar c B with
  | nil => exact absurd hb (splitOnChar_ne_nil c B)
  | cons b0 bt =>
    simp only [List.modifyHead, List.reverse_append, List.reverse_cons, List.tail_cons]
    have hlen : bt.reverse.length = B.count c := by
      have := length_splitOnChar c B
      rw [hb] at this
      simp only [List.length_cons] at this
      simp [List.length_reverse]
      omega
    rw [List.append_assoc]
    exact List.take_left' hlen

/-- Claim C7 is false on the code: the pattern's flexible whitespace
matches across a line break, so replacing the version of package aa whose
declaration spans two lines rewrites the second line, which does not
contain the package name. -/
theorem c7_counterexample :
    (replaceVersionInSection (str "\x7b\"dependencies\": \x7b\"aa\":\n\"1.0\"\x7d\x7d")
      (str "dependencies") (str "aa") (str "1.0") (str "2.0")).2 = true ∧
    (splitOnChar '\n' (str "\x7b\"dependencies\": \x7b\"aa\":\n\"1.0\"\x7d\x7d")).get? 1 =
      some (str "\"1.0\"\x7d\x7d") ∧
    containsSub (str "\"1.0\"\x7d\x7d") (str "aa") = false ∧
    (splitOnChar '\n'
      (replaceVersionInSection (str "\x7b\"dependencies\": \x7b\"aa\":\n\"1.0\"\x7d\x7d")
        (str "dependencies") (str "aa") (str "1.0") (str "2.0")).1).get? 1 =
      some (str "\"2.0\"\x7d\x7d") := by
  refine ⟨rfl, rfl, rfl, rfl⟩

theorem lines_frame (A M M' B co ou : Str) (hc : co = A ++ M ++ B) (ho : ou = A ++ M' ++ B) :
    (splitOnChar '\n' ou).take (A.count '\n') = (splitOnChar '\n' co).take (A.count '\n') ∧
    (splitOnChar '\n' ou).reverse.take (B.count '\n') =
      (splitOnChar '\n' co).reverse.take (B.count '\n') := by
  subst hc
  subst ho
  constructor
  · rw [List.append_assoc A M B, List.append_assoc A M' B,
      splitOnChar_take_prefix, splitOnChar_take_prefix]
  · rw [splitOnChar_take_suffix, splitOnChar_take_suffix]

/-- Claim C7 as amended: a successful replaceVersionInSection factors the
input as A, the matched declaration M (quoted package, whitespace, colon,
whitespace, quoted from-version) and B, rewriting only M; every complete
line of A and of B is byte-identical in the output, counted from the front
and from the back respectively. -/
theorem c7_amended (content sec pkg fromV toV out : Str)
    (h : replaceVersionInSection content sec pkg fromV toV = (out, true)) :
    ∃ A M M' B,
      content = A ++ M ++ B ∧ out = A ++ M' ++ B ∧ DeclMatch pkg fromV M ∧
      (splitOnChar '\n' out).take (A.count '\n') =
        (splitOnChar '\n' content).take (A.count '\n') ∧
      (splitOnChar '\n' out).reverse.take (B.count '\n') =
        (splitOnChar '\n' content).reverse.take (B.count '\n') := by
  unfold replaceVersionInSection at h
  cases hh : findPat (tryHeader sec) content with
  | none =>
    rw [hh] at h
    simp at h
  | some p1 =>
    obtain ⟨ss, hlen⟩ := p1
    rw [hh] at h
    simp only at h
    cases hoff : findClosingOff (content.drop ss) 0 false with
    | none =>
      rw [hoff] at h
      simp only [Nat.sub_self, List.take_zero] at h
      simp [findPat] at h
    | some off =>
      rw [hoff] at h
      simp only [Nat.add_sub_cancel_left] at h
      cases hfd : findPat (tryDecl pkg fromV) ((content.drop ss).take off) with
      | none =>
        rw [hfd] at h
        simp at h
      | some pl =>
        obtain ⟨idx, lens⟩ := pl
        rw [hfd] at h
        simp only at h
        have hout := congrArg Prod.fst h
        simp only at hout
        obtain ⟨hle, htd⟩ := findPat_some _ _ _ _ hfd
        obtain ⟨m, r, hmr, hmlen, hdm⟩ := tryDecl_sound pkg fromV _ lens.1 lens.2 htd
        have hpost : ((content.drop ss).take off).drop (idx + lens.2) = r := by
          have hdd : ((content.drop ss).take off).drop (idx + lens.2) =
              (((content.drop ss).take off).drop idx).drop lens.2 := by
            rw [List.drop_drop, Nat.add_comm]
          rw [hdd, hmr, ← hmlen, List.drop_left]
        have hcontent : content =
            (content.take ss ++ ((content.drop ss).take off).take idx) ++ m ++
              (r ++ content.drop (ss + off)) := by
          conv_lhs => rw [← List.take_append_drop ss content]
          conv_lhs => rw [← List.take_append_drop off (content.drop ss)]
          conv_lhs => rw [← List.take_append_drop idx ((content.drop ss).take off)]
          rw [hmr, List.drop_drop]
          simp [List.append_assoc, Nat.add_comm]
        have hout2 : out =
            (content.take ss ++ ((content.drop ss).take off).take idx) ++
              expandTemplate [(((content.drop ss).take off).drop idx).take lens.1, ['"']]
                ((((content.drop ss).take off).drop idx).take lens.2)
                (((content.drop ss).take off).take idx)
                (((content.drop ss).take off).drop (idx + lens.2))
                (str "$1" ++ toV ++ str "$2") ++
              (r ++ content.drop (ss + off)) := by
          rw [← hout, hpost]
          simp [List.append_assoc]
        refine ⟨content.take ss ++ ((content.drop ss).take off).take idx, m,
          expandTemplate [(((content.drop ss).take off).drop idx).take lens.1, ['"']]
            ((((content.drop ss).take off).drop idx).take lens.2)
            (((content.drop ss).take off).take idx)
            (((content.drop ss).take off).drop (idx + lens.2))
            (str "$1" ++ toV ++ str "$2"),
          r ++ content.drop (ss + off), hcontent, hout2, hdm,
          (lines_frame _ _ _ _ _ _ hcontent hout2).1,
          (lines_frame _ _ _ _ _ _ hcontent hout2).2⟩

/-- Witness for the amended claim C7 at the concrete one-line lodash
replacement. -/
theorem c7_amended_witness :
    ∃ A M M' B,
      str "\x7b\"dependencies\": \x7b\"lodash\": \"^4.17.0\"\x7d\x7d" = A ++ M ++ B ∧
      str "\x7b\"dependencies\": \x7b\"lodash\": \"^4.17.21\"\x7d\x7d" = A ++ M' ++ B ∧
      DeclMatch (str "lodash") (str "^4.17.0") M ∧
      (splitOnChar '\n' (str "\x7b\"dependencies\": \x7b\"lodash\": \"^4.17.21\"\x7d\x7d")).take
          (A.count '\n') =
        (splitOnChar '\n' (str "\x7b\"dependencies\": \x7b\"lodash\": \"^4.17.0\"\x7d\x7d")).take
          (A.count '\n') ∧
      (splitOnChar '\n' (str "\x7b\"dependencies\": \x7b\"lodash\": \"^4.17.21\"\x7d\x7d")).reverse.take
          (B.count '\n') =
        (splitOnChar '\n' (str "\x7b\"dependencies\": \x7b\"lodash\": \"^4.17.0\"\x7d\x7d")).reverse.take
          (B.count '\n') :=
  c7_amended (str "\x7b\"dependencies\": \x7b\"lodash\": \"^4.17.0\"\x7d\x7d")
    (str "dependencies") (str "lodash") (str "^4.17.0") (str "^4.17.21")
    (str "\x7b\"dependencies\": \x7b\"lodash\": \"^4.17.21\"\x7d\x7d") rfl
